import Mathlib

/-!
Shallow embedding of `src/histogram.py` (wind-rose plotting for NOAA daily
weather observations).

Conventions of the embedding:

* Angles are measured in units of π radians: the Python value `x` (radians)
  is represented by the rational `x / π`.  The heading transform
  `(-heading_rad + np.pi/2) % (2*np.pi)` and the bin tests `th > width*i`,
  `th < width*(i+1)` with `width = 2*np.pi/bins` are all homogeneous in π, so
  dividing everything by π is an order- and equality-preserving change of
  units; `2*np.pi` becomes `2` and `np.pi/2` becomes `1/2`.  This keeps every
  definition computable (ℚ instead of ℝ).
* IEEE NaN (the result of numpy's `0/0` in `counts / counts.sum()` and the
  missing-value marker in the CSV columns) is represented by `Option.none`;
  a finite value `v` by `some v`.
* `np.where(mask)[0]` followed by fancy indexing is modelled by `whereTrue`
  (the list of indices whose mask entry is true) followed by `List.filterMap`
  over `List.get?`.
* Python's substring test `tag in d` on strings is modelled by `containsSub`
  on `List Char`.
-/

namespace Windy

/-- Python/numpy `%` on rationals: `pymod x y = x - y * ⌊x / y⌋`; for `y > 0`
this is the representative of `x` in `[0, y)`, exactly numpy's convention for
a positive modulus. -/
def pymod (x y : ℚ) : ℚ := x - y * ⌊x / y⌋

/-- Line 52 of `histogram.py`:
`th = (-heading_rad + np.pi/2) % (2 * np.pi)`, in units of π. -/
def transform (heading : ℚ) : ℚ := pymod (-heading + 1/2) 2

/-- Line 54: `width = 2 * np.pi / bins`, in units of π. -/
def width (bins : ℕ) : ℚ := 2 / (bins : ℚ)

/-- Lines 55-56: the elementwise test `(th > width*i) & (th < width*(i + 1))`
for one transformed sample `t` and one bin `i` (strict on both sides). -/
def inBinB (bins i : ℕ) (t : ℚ) : Bool :=
  decide (width bins * (i : ℚ) < t) && decide (t < width bins * ((i : ℚ) + 1))

/-- Lines 55-57: `len(np.where((th > width*i) & (th < width*(i+1)))[0])`,
the number of samples landing in bin `i`. -/
def binCount (heading : List ℚ) (bins i : ℕ) : ℕ :=
  ((heading.map transform).filter (fun t => inBinB bins i t)).length

/-- Lines 55-57: `counts`, the vector of all `bins` bin counts. -/
def counts (heading : List ℚ) (bins : ℕ) : List ℕ :=
  (List.range bins).map (fun i => binCount heading bins i)

/-- Line 59: `counts.sum()`. -/
def total (heading : List ℚ) (bins : ℕ) : ℕ := (counts heading bins).sum

/-- Line 59: `radii = counts / counts.sum()`.  When the total is `0`, numpy's
`0/0` yields NaN (`none`) in every entry (no exception is raised); otherwise
each entry is the finite rational `count / total`. -/
def radii (heading : List ℚ) (bins : ℕ) : List (Option ℚ) :=
  (counts heading bins).map (fun (c : ℕ) =>
    if total heading bins = 0 then none
    else some ((c : ℚ) / (total heading bins : ℚ)))

/-- A transformed angle sits exactly on a bin edge: it equals `k * width` for
some natural `k ≤ bins` (values in `[0, 2]` admit no other multiples). -/
def boundaryB (bins : ℕ) (t : ℚ) : Bool :=
  (List.range (bins + 1)).any (fun k => decide (t = width bins * (k : ℚ)))

/-- Modelled after the spec's own words in §4.2: "each angle is transformed
via θ' = (-θ + π/2) mod 2π", stated in units of π.  Compared against the
code-derived `transform` for the refinement claim. -/
def specHeadingTransform (θ : ℚ) : ℚ := pymod (-θ + 1/2) 2

/-- `np.where(mask)[0]`: the indices at which the boolean mask is true, in
increasing order. -/
def whereTrue (mask : List Bool) : List ℕ :=
  (List.range mask.length).filter (fun i => mask.getD i false)

/-- One row of the observation table; only the three consulted columns are
modelled.  A missing (NaN) numeric entry is `none`. -/
structure Obs where
  date : List Char
  wdf5 : Option ℚ
  wsf5 : Option ℚ

/-- The row mask of line 44: `~np.isnan(df['WDF5']) & ~np.isnan(df['WSF5'])`. -/
def cleanP (r : Obs) : Bool := r.wdf5.isSome && r.wsf5.isSome

/-- Lines 44-45: `index = np.where(~isnan(WDF5) & ~isnan(WSF5))[0]` followed by
`df['DATE'][index], df['WDF5'][index], df['WSF5'][index]`. -/
def clean_wind_data (df : List Obs) :
    List (List Char) × List (Option ℚ) × List (Option ℚ) :=
  let idx := whereTrue (df.map cleanP)
  (idx.filterMap (fun i => (df.get? i).map Obs.date),
   idx.filterMap (fun i => (df.get? i).map Obs.wdf5),
   idx.filterMap (fun i => (df.get? i).map Obs.wsf5))

/-- The three-row table of the spec's concrete cleaning scenario:
`[(dir=10, speed=5), (dir=NaN, speed=5), (dir=20, speed=NaN)]`. -/
def exampleDf : List Obs :=
  [⟨['a'], some 10, some 5⟩, ⟨['b'], none, some 5⟩, ⟨['c'], some 20, none⟩]

/-- Line 86: the month tag `'-%02d-' % m` (two digits, zero padded). -/
def monthTag (m : ℕ) : List Char :=
  ['-', Char.ofNat (48 + m / 10), Char.ofNat (48 + m % 10), '-']

/-- Prefix test on character lists (helper for the substring test). -/
def isPrefixOfB : List Char → List Char → Bool
  | [], _ => true
  | _ :: _, [] => false
  | p :: ps, x :: xs => p == x && isPrefixOfB ps xs

/-- Python's substring operator `pat in s`: some contiguous run of `s`
equals `pat`. -/
def containsSub (pat : List Char) : List Char → Bool
  | [] => pat.isEmpty
  | x :: xs => isPrefixOfB pat (x :: xs) || containsSub pat xs

/-- Line 86: the per-row test `('-%02d-' % m) in d` (1-based month `m`). -/
def monthMatch (m : ℕ) (d : List Char) : Bool := containsSub (monthTag m) d

/-- The 0-based month groups (of line 86's loop index `i`) whose tag occurs in
a given date string. -/
def monthsMatching (d : List Char) : List ℕ :=
  (List.range 12).filter (fun i => monthMatch (i + 1) d)

/-- The cleaned `WDF5` column as the monthly loop receives it: a pandas
Series.  Each surviving row keeps its original row label (in the raw
DataFrame, labels `0..n-1` coincide with positions, so line 45's
`df['WDF5'][index]` selects by those labels and the result is the list of
`(original label, value)` pairs of the rows that passed the NaN mask). -/
def cleanWdSeries (df : List Obs) : List (ℕ × Option ℚ) :=
  (whereTrue (df.map cleanP)).map (fun i => (i, (df.get? i).bind Obs.wdf5))

/-- Lines 86-87: `index = np.where([('-%02d-' % (i+1)) in d for d in date])[0]`
then `wdi = wd[index]`.  The positions in `index` are taken over the cleaned
`date` sequence, but `wd` is the cleaned `WDF5` pandas Series, which keeps
the original row labels of the surviving rows, and bracket-indexing an
integer-labelled Series with an integer array is label-based, not
positional.  Each selected position is therefore looked up as a label; a
position that is not a surviving label yields `none` (pandas ≥ 1.0 raises a
KeyError there, the 2018-era pandas this repository targets reindexes the
missing label to NaN). -/
def monthWd (dates : List (List Char)) (wdS : List (ℕ × Option ℚ)) (i : ℕ) :
    List (Option ℚ) :=
  (whereTrue (dates.map (fun d => monthMatch (i + 1) d))).map
    (fun k => (wdS.find? (fun p => p.1 == k)).bind Prod.snd)

/-- The character list `YYYY-MM-DD` for a month `m` (two digits, zero padded)
and literal year/day digit characters. -/
def isoDateList (y1 y2 y3 y4 : Char) (m : ℕ) (e f : Char) : List Char :=
  [y1, y2, y3, y4, '-', Char.ofNat (48 + m / 10), Char.ofNat (48 + m % 10),
   '-', e, f]

/-- A two-row observation table whose first row is dropped by cleaning: the
surviving January sample has original label 1 but cleaned position 0. -/
def bugDf : List Obs :=
  [⟨isoDateList '2' '0' '2' '0' 1 '0' '3', none, some 5⟩,
   ⟨isoDateList '2' '0' '2' '0' 1 '0' '5', some (1/4), some 5⟩]

/- ### Basic facts about `pymod`, `transform` and `width` -/

theorem pymod_nonneg (x y : ℚ) (hy : 0 < y) : 0 ≤ pymod x y := by
  have h := Int.floor_le (x / y)
  have h2 : y * (⌊x / y⌋ : ℚ) ≤ y * (x / y) :=
    mul_le_mul_of_nonneg_left h (le_of_lt hy)
  rw [mul_div_cancel₀ x (ne_of_gt hy)] at h2
  unfold pymod
  linarith

theorem pymod_lt (x y : ℚ) (hy : 0 < y) : pymod x y < y := by
  have h := Int.lt_floor_add_one (x / y)
  have h2 : y * (x / y) < y * ((⌊x / y⌋ : ℚ) + 1) := mul_lt_mul_of_pos_left h hy
  rw [mul_div_cancel₀ x (ne_of_gt hy)] at h2
  unfold pymod
  linarith

theorem transform_nonneg (θ : ℚ) : 0 ≤ transform θ :=
  pymod_nonneg _ 2 (by norm_num)

theorem transform_lt_two (θ : ℚ) : transform θ < 2 :=
  pymod_lt _ 2 (by norm_num)

theorem width_pos (bins : ℕ) (hb : 1 ≤ bins) : 0 < width bins := by
  have hbq : (0 : ℚ) < (bins : ℚ) := by exact_mod_cast hb
  exact div_pos (by norm_num) hbq

theorem width_mul_bins (bins : ℕ) (hb : 1 ≤ bins) :
    width bins * (bins : ℚ) = 2 := by
  have hbq : (bins : ℚ) ≠ 0 := Nat.cast_ne_zero.mpr (by omega)
  unfold width
  field_simp

/-- On any exact multiple of the bin width, both strict comparisons cannot
hold: the sample is counted in no bin. -/
theorem inBinB_eq_false_of_multiple (bins i k : ℕ) (t : ℚ) (hb : 1 ≤ bins)
    (ht : t = width bins * (k : ℚ)) : inBinB bins i t = false := by
  have hw := width_pos bins hb
  cases hres : inBinB bins i t
  · rfl
  · exfalso
    unfold inBinB at hres
    rw [Bool.and_eq_true, decide_eq_true_eq, decide_eq_true_eq] at hres
    obtain ⟨h1, h2⟩ := hres
    rw [ht] at h1 h2
    have hik : (i : ℚ) < (k : ℚ) := (mul_lt_mul_left hw).mp h1
    have hki : (k : ℚ) < (i : ℚ) + 1 := (mul_lt_mul_left hw).mp h2
    have hik' : i < k := by exact_mod_cast hik
    have hki' : k < i + 1 := by exact_mod_cast hki
    omega

/-- C1 (corrected claim): on an empty input the bin counts are all zero and
the normalized frequencies are all NaN (`none`), for every bin count. -/
theorem binner_empty_all_nan (B : ℕ) :
    counts [] B = List.replicate B 0 ∧ radii [] B = List.replicate B none := by
  have hc : counts [] B = List.replicate B 0 := by
    simp [counts, binCount, List.map_const', List.length_range]
  have ht : total [] B = 0 := by
    simp [total, hc]
  refine ⟨hc, ?_⟩
  simp [radii, ht, hc, List.map_const', List.length_replicate]

/-- C1 counterexample: with an empty angle sequence and one bin, the
frequency vector is `[none]` (NaN), not the all-zero vector `[some 0]`. -/
theorem binner_empty_not_zero_cex :
    radii [] 1 = [none] ∧ radii [] 1 ≠ [some (0 : ℚ)] := by
  have h : radii [] 1 = [none] := by
    simp [radii, counts, total, binCount, List.range_succ]
  exact ⟨h, by simp [h]⟩

/-- C2 counterexample: for the angles `[0°, 90°, 180°, 270°]` (in units of π:
`[0, 1/2, 1, 3/2]`) with 4 bins, every bin count is `0` — not one sample per
bin — and the frequencies are NaN, not `0.25`. -/
theorem four_cardinal_angles_cex :
    counts [0, 1/2, 1, 3/2] 4 = [0, 0, 0, 0] ∧
    counts [0, 1/2, 1, 3/2] 4 ≠ [1, 1, 1, 1] ∧
    radii [0, 1/2, 1, 3/2] 4 = [none, none, none, none] := by
  have hc : counts [0, 1/2, 1, 3/2] 4 = [0, 0, 0, 0] := by
    norm_num [counts, binCount, inBinB, transform, pymod, width, List.range_succ]
  have ht : total [0, 1/2, 1, 3/2] 4 = 0 := by
    unfold total
    rw [hc]
    decide
  refine ⟨hc, by rw [hc]; decide, ?_⟩
  unfold radii
  rw [hc, ht]
  rfl

/-- C2 (corrected claim): each of the four transformed cardinal angles lands
exactly on a bin edge, so all four samples are dropped: every bin count is
zero and every normalized frequency is NaN. -/
theorem four_cardinal_angles_dropped :
    (([0, 1/2, 1, 3/2] : List ℚ).all
      (fun θ => boundaryB 4 (transform θ))) = true ∧
    counts [0, 1/2, 1, 3/2] 4 = List.replicate 4 0 ∧
    radii [0, 1/2, 1, 3/2] 4 = List.replicate 4 none := by
  have hc : counts [0, 1/2, 1, 3/2] 4 = [0, 0, 0, 0] := by
    norm_num [counts, binCount, inBinB, transform, pymod, width, List.range_succ]
  have ht : total [0, 1/2, 1, 3/2] 4 = 0 := by
    unfold total
    rw [hc]
    decide
  refine ⟨?_, by rw [hc]; rfl, ?_⟩
  · norm_num [boundaryB, transform, pymod, width, List.range_succ, List.all_cons]
  · unfold radii
    rw [hc, ht]
    rfl

/-- C3: a sample whose transformed angle equals a bin edge (`k` times the bin
width — in particular the lower edge `i·w` or upper edge `(i+1)·w` of any bin
`i`) fails the strict `>`/`<` test of every bin, so it is dropped from all
`bins` bins. -/
theorem boundary_sample_excluded (bins i k : ℕ) (θ : ℚ) (hb : 1 ≤ bins)
    (ht : transform θ = width bins * (k : ℚ)) :
    inBinB bins i (transform θ) = false ∧
    counts [θ] bins = List.replicate bins 0 := by
  have hall : ∀ j, inBinB bins j (transform θ) = false := fun j =>
    inBinB_eq_false_of_multiple bins j k (transform θ) hb ht
  refine ⟨hall i, ?_⟩
  simp [counts, binCount, hall, List.map_const', List.length_range]

/-- Witness for C3 at `bins = 4`, `θ = 0`: the transformed angle `π/2` is the
upper edge of bin 0 and the lower edge of bin 1, and the sample is dropped. -/
theorem boundary_sample_excluded_witness :
    inBinB 4 1 (transform 0) = false ∧
    counts [0] 4 = List.replicate 4 0 :=
  boundary_sample_excluded 4 1 1 0 (by norm_num)
    (by norm_num [transform, pymod, width])

/-- C7: the heading transform applied before binning is exactly
`θ' = (-θ + π/2) mod 2π` (spec §4.2 wording), and every bin count is decided
by bin membership of the transformed angle. -/
theorem binning_uses_transformed_angle :
    (∀ θ : ℚ, transform θ = specHeadingTransform θ) ∧
    ∀ (l : List ℚ) (bins i : ℕ),
      binCount l bins i =
        (l.filter (fun θ => inBinB bins i (specHeadingTransform θ))).length := by
  constructor
  · intro θ; rfl
  · intro l bins i
    show ((l.map transform).filter (fun t => inBinB bins i t)).length = _
    rw [List.filter_map, List.length_map]
    rfl

/- ### Counting helpers -/

theorem sum_map_zero {α : Type*} (I : List α) :
    (I.map (fun _ => (0 : ℕ))).sum = 0 := by
  induction I with
  | nil => rfl
  | cons a t ih => simp [ih]

theorem sum_map_add_nat {α : Type*} (f g : α → ℕ) (L : List α) :
    (L.map (fun a => f a + g a)).sum = (L.map f).sum + (L.map g).sum := by
  induction L with
  | nil => rfl
  | cons a t ih =>
    simp only [List.map_cons, List.sum_cons, ih]
    omega

theorem sum_map_ite_count {α : Type*} (p : α → Bool) (L : List α) :
    (L.map (fun a => if p a then 1 else 0)).sum = L.countP p := by
  induction L with
  | nil => rfl
  | cons a t ih =>
    simp only [List.map_cons, List.sum_cons, List.countP_cons, ih]
    cases p a <;> simp [Nat.add_comm]

theorem sum_map_ite_len {α : Type*} (p : α → Bool) (L : List α) :
    (L.map (fun a => if p a then 0 else 1)).sum = L.length - L.countP p := by
  induction L with
  | nil => rfl
  | cons a t ih =>
    have hle : t.countP p ≤ t.length := List.countP_le_length p
    simp only [List.map_cons, List.sum_cons, List.countP_cons, List.length_cons,
      ih]
    cases p a <;> simp <;> omega

/-- Exchanging a sum of per-index counts for a sum of per-element hit counts
(finite Fubini for `countP`). -/
theorem sum_map_countP_comm {α : Type*} (I : List ℕ) (q : ℕ → α → Bool)
    (l : List α) :
    (I.map (fun m => l.countP (q m))).sum
      = (l.map (fun a => I.countP (fun m => q m a))).sum := by
  induction l with
  | nil =>
    simp only [List.countP_nil, List.map_nil, List.sum_nil]
    exact sum_map_zero I
  | cons a t ih =>
    simp only [List.countP_cons, List.map_cons, List.sum_cons]
    rw [sum_map_add_nat (fun m => t.countP (q m))
      (fun m => if q m a then 1 else 0) I, ih, sum_map_ite_count]
    omega

theorem filter_range_unique (M i₀ : ℕ) (p : ℕ → Bool) (hi : i₀ < M)
    (hp : p i₀ = true) (hu : ∀ j, j < M → p j = true → j = i₀) :
    (List.range M).filter p = [i₀] := by
  induction M with
  | zero => omega
  | succ n ih =>
    rw [List.range_succ, List.filter_append]
    rcases Nat.lt_succ_iff_lt_or_eq.mp hi with hlt | heq
    · have hpn : p n = false := by
        cases hpn : p n
        · rfl
        · have := hu n (Nat.lt_succ_self n) hpn
          omega
      rw [ih hlt (fun j hj hpj => hu j (Nat.lt_succ_of_lt hj) hpj)]
      simp [List.filter_cons, hpn]
    · subst heq
      have h0 : (List.range i₀).filter p = [] := by
        apply List.filter_eq_nil_iff.mpr
        intro j hj hpj
        have h1 := hu j (Nat.lt_succ_of_lt (List.mem_range.mp hj)) hpj
        have h2 := List.mem_range.mp hj
        omega
      rw [h0]
      simp [List.filter_cons, hp]

theorem countP_range_unique (M i₀ : ℕ) (p : ℕ → Bool) (hi : i₀ < M)
    (hp : p i₀ = true) (hu : ∀ j, j < M → p j = true → j = i₀) :
    (List.range M).countP p = 1 := by
  rw [List.countP_eq_length_filter, filter_range_unique M i₀ p hi hp hu]
  rfl

/- ### Which bins can a transformed angle land in -/

theorem boundaryB_eq_true (bins : ℕ) (t : ℚ) :
    boundaryB bins t = true ↔ ∃ k, k ≤ bins ∧ t = width bins * (k : ℚ) := by
  unfold boundaryB
  rw [List.any_eq_true]
  constructor
  · rintro ⟨k, hk, hkeq⟩
    exact ⟨k, Nat.lt_succ_iff.mp (List.mem_range.mp hk), of_decide_eq_true hkeq⟩
  · rintro ⟨k, hk, hkeq⟩
    exact ⟨k, List.mem_range.mpr (Nat.lt_succ_of_le hk), decide_eq_true hkeq⟩

/-- Away from bin edges, a transformed angle in `[0, 2)` lands in exactly one
of the `bins` strict open sectors. -/
theorem inBin_unique (bins : ℕ) (t : ℚ) (hb : 1 ≤ bins) (h0 : 0 ≤ t)
    (h2 : t < 2) (hnb : boundaryB bins t = false) :
    ∃ i₀, i₀ < bins ∧ inBinB bins i₀ t = true ∧
      ∀ j, inBinB bins j t = true → j = i₀ := by
  have hw := width_pos bins hb
  have hnb' : ¬ ∃ k, k ≤ bins ∧ t = width bins * (k : ℚ) := by
    rw [← boundaryB_eq_true]
    simp [hnb]
  have hq0 : 0 ≤ t / width bins := div_nonneg h0 (le_of_lt hw)
  have hqb : t / width bins < (bins : ℚ) := by
    rw [div_lt_iff hw]
    calc t < 2 := h2
    _ = width bins * (bins : ℚ) := (width_mul_bins bins hb).symm
    _ = (bins : ℚ) * width bins := mul_comm _ _
  have hfl0 : 0 ≤ ⌊t / width bins⌋ := Int.floor_nonneg.mpr hq0
  have hcast : ((⌊t / width bins⌋.toNat : ℕ) : ℚ) = ((⌊t / width bins⌋ : ℤ) : ℚ) := by
    exact_mod_cast congrArg (fun z : ℤ => (z : ℚ)) (Int.toNat_of_nonneg hfl0)
  have hfltb : ⌊t / width bins⌋ < (bins : ℤ) := Int.floor_lt.mpr (by exact_mod_cast hqb)
  have htq : width bins * (t / width bins) = t := by
    rw [mul_comm]
    exact div_mul_cancel₀ t (ne_of_gt hw)
  refine ⟨⌊t / width bins⌋.toNat, by omega, ?_, ?_⟩
  · have hle : width bins * ((⌊t / width bins⌋.toNat : ℕ) : ℚ) ≤ t := by
      rw [hcast]
      calc width bins * ((⌊t / width bins⌋ : ℤ) : ℚ)
          ≤ width bins * (t / width bins) :=
            mul_le_mul_of_nonneg_left (Int.floor_le _) (le_of_lt hw)
      _ = t := htq
    have hne : t ≠ width bins * ((⌊t / width bins⌋.toNat : ℕ) : ℚ) := by
      intro hcontra
      exact hnb' ⟨⌊t / width bins⌋.toNat, by omega, hcontra⟩
    have hupp : t < width bins * (((⌊t / width bins⌋.toNat : ℕ) : ℚ) + 1) := by
      rw [hcast]
      calc t = width bins * (t / width bins) := htq.symm
      _ < width bins * (((⌊t / width bins⌋ : ℤ) : ℚ) + 1) :=
            mul_lt_mul_of_pos_left (Int.lt_floor_add_one _) hw
    unfold inBinB
    rw [Bool.and_eq_true]
    exact ⟨decide_eq_true (lt_of_le_of_ne hle (Ne.symm hne)), decide_eq_true hupp⟩
  · intro j hj
    unfold inBinB at hj
    rw [Bool.and_eq_true, decide_eq_true_eq, decide_eq_true_eq] at hj
    obtain ⟨hjl, hju⟩ := hj
    have hjq : (j : ℚ) < t / width bins := by
      rw [lt_div_iff hw]
      calc (j : ℚ) * width bins = width bins * (j : ℚ) := mul_comm _ _
      _ < t := hjl
    have hqj : t / width bins < (j : ℚ) + 1 := by
      rw [div_lt_iff hw]
      calc t < width bins * ((j : ℚ) + 1) := hju
      _ = ((j : ℚ) + 1) * width bins := mul_comm _ _
    have hj1 : (j : ℤ) ≤ ⌊t / width bins⌋ := Int.le_floor.mpr (le_of_lt (by exact_mod_cast hjq))
    have hj2 : ⌊t / width bins⌋ < (j : ℤ) + 1 := Int.floor_lt.mpr (by exact_mod_cast hqj)
    omega

/-- A transformed angle in `[0, 2)` is counted once if it avoids all bin
edges, and zero times if it sits on one. -/
theorem bins_hit (bins : ℕ) (t : ℚ) (hb : 1 ≤ bins) (h0 : 0 ≤ t)
    (h2 : t < 2) :
    (List.range bins).countP (fun i => inBinB bins i t)
      = if boundaryB bins t then 0 else 1 := by
  cases hB : boundaryB bins t
  · obtain ⟨i₀, hilt, hmem, huniq⟩ := inBin_unique bins t hb h0 h2 hB
    simpa using countP_range_unique bins i₀ _ hilt hmem
      (fun j hj hpj => huniq j hpj)
  · simp only [if_pos]
    apply List.countP_eq_zero.mpr
    intro j hj
    obtain ⟨k, hk, hkeq⟩ := (boundaryB_eq_true bins t).mp hB
    rw [inBinB_eq_false_of_multiple bins j k t hb hkeq]
    simp

theorem total_eq_sum_hits (l : List ℚ) (bins : ℕ) :
    total l bins = ((l.map transform).map
      (fun t => (List.range bins).countP (fun i => inBinB bins i t))).sum := by
  unfold total counts binCount
  simp only [← List.countP_eq_length_filter]
  exact sum_map_countP_comm (List.range bins) (fun i t => inBinB bins i t)
    (l.map transform)

theorem total_formula (l : List ℚ) (bins : ℕ) (hb : 1 ≤ bins) :
    total l bins =
      l.length - ((l.map transform).filter (fun t => boundaryB bins t)).length := by
  rw [total_eq_sum_hits]
  have hcong : List.map (fun t => (List.range bins).countP (fun i => inBinB bins i t))
        (l.map transform)
      = List.map (fun t => if boundaryB bins t then 0 else 1) (l.map transform) := by
    apply List.map_eq_map_iff.mpr
    intro t ht
    obtain ⟨x, _, rfl⟩ := List.mem_map.mp ht
    exact bins_hit bins (transform x) hb (transform_nonneg x) (transform_lt_two x)
  rw [hcong, sum_map_ite_len, List.length_map, List.countP_eq_length_filter]

/-- C4: the bin counts sum to the number of samples minus the number of
samples whose transformed angle sits exactly on a bin edge (a multiple of the
bin width). -/
theorem counts_sum_eq_length_sub_boundary (l : List ℚ) (bins : ℕ)
    (hb : 1 ≤ bins) :
    total l bins =
      l.length - ((l.map transform).filter (fun t => boundaryB bins t)).length :=
  total_formula l bins hb

/-- Witness for C4: the sample `0°` transforms onto a bin edge and is lost;
the sample `45°` is counted; so 4 bins hold `2 - 1` samples in all. -/
theorem counts_sum_eq_length_sub_boundary_witness :
    total [0, 1/4] 4 =
      ([0, 1/4] : List ℚ).length -
        ((([0, 1/4] : List ℚ).map transform).filter
          (fun t => boundaryB 4 t)).length :=
  counts_sum_eq_length_sub_boundary [0, 1/4] 4 (by norm_num)

/-- C9: the transformed angle lies in `[0, 2π)`, distinct bins are disjoint
(a sample is counted in at most one bin), and consequently every bin count
and the sum of all bin counts are at most the number of input samples. -/
theorem sample_in_at_most_one_bin (l : List ℚ) (bins i j : ℕ) (θ : ℚ)
    (hb : 1 ≤ bins) (hij : i ≠ j) :
    (0 ≤ transform θ ∧ transform θ < 2) ∧
    (inBinB bins i (transform θ) && inBinB bins j (transform θ)) = false ∧
    binCount l bins i ≤ l.length ∧ total l bins ≤ l.length := by
  refine ⟨⟨transform_nonneg θ, transform_lt_two θ⟩, ?_, ?_, ?_⟩
  · cases hres : (inBinB bins i (transform θ) && inBinB bins j (transform θ))
    · rfl
    · exfalso
      rw [Bool.and_eq_true] at hres
      obtain ⟨h1, h2⟩ := hres
      unfold inBinB at h1 h2
      rw [Bool.and_eq_true, decide_eq_true_eq, decide_eq_true_eq] at h1 h2
      have hw := width_pos bins hb
      obtain ⟨h1l, h1u⟩ := h1
      obtain ⟨h2l, h2u⟩ := h2
      have hij1 : (i : ℚ) < (j : ℚ) + 1 := (mul_lt_mul_left hw).mp (lt_trans h1l h2u)
      have hij2 : (j : ℚ) < (i : ℚ) + 1 := (mul_lt_mul_left hw).mp (lt_trans h2l h1u)
      have hn1 : i < j + 1 := by exact_mod_cast hij1
      have hn2 : j < i + 1 := by exact_mod_cast hij2
      omega
  · unfold binCount
    exact le_trans (List.length_filter_le _ _) (le_of_eq (List.length_map l transform))
  · rw [total_formula l bins hb]
    omega

/-- Witness for C9 at `bins = 4`, bins 0 and 1, sample list `[0°]`. -/
theorem sample_in_at_most_one_bin_witness :
    (0 ≤ transform (1/4) ∧ transform (1/4) < 2) ∧
    (inBinB 4 0 (transform (1/4)) && inBinB 4 1 (transform (1/4))) = false ∧
    binCount [0] 4 0 ≤ ([0] : List ℚ).length ∧
    total [0] 4 ≤ ([0] : List ℚ).length :=
  sample_in_at_most_one_bin [0] 4 0 1 (1/4) (by norm_num) (by norm_num)

/- ### Normalization -/

theorem filterMap_id_map_some {β : Type*} (g : ℕ → β) (L : List ℕ) :
    ((L.map (fun c => some (g c))).filterMap id) = L.map g := by
  induction L with
  | nil => rfl
  | cons a t ih => simp [ih]

theorem natCast_list_sum (L : List ℕ) :
    (L.map (fun (c : ℕ) => (c : ℚ))).sum = ((L.sum : ℕ) : ℚ) := by
  induction L with
  | nil => simp
  | cons a t ih =>
    simp only [List.map_cons, List.sum_cons, ih]
    push_cast
    ring

/-- C6: whenever at least one sample was counted (non-zero count vector), the
normalized frequencies are the finite rationals `count / total` and they sum
to exactly 1. -/
theorem radii_sum_one (l : List ℚ) (bins : ℕ) (h : total l bins ≠ 0) :
    radii l bins =
      (counts l bins).map (fun (c : ℕ) => some ((c : ℚ) / (total l bins : ℚ))) ∧
    ((radii l bins).filterMap id).sum = 1 := by
  have h1 : radii l bins =
      (counts l bins).map (fun (c : ℕ) => some ((c : ℚ) / (total l bins : ℚ))) := by
    unfold radii
    exact List.map_eq_map_iff.mpr (fun c _ => by rw [if_neg h])
  refine ⟨h1, ?_⟩
  rw [h1, filterMap_id_map_some]
  have hT : ((total l bins : ℕ) : ℚ) ≠ 0 := Nat.cast_ne_zero.mpr h
  simp only [div_eq_mul_inv]
  rw [List.sum_map_mul_right, natCast_list_sum]
  show ((total l bins : ℕ) : ℚ) * ((total l bins : ℕ) : ℚ)⁻¹ = 1
  exact mul_inv_cancel₀ hT

/-- Witness for C6: one sample at `45°` with a single bin gives total `1`. -/
theorem radii_sum_one_witness :
    radii [1/4] 1 =
      (counts [1/4] 1).map (fun (c : ℕ) => some ((c : ℚ) / (total [1/4] 1 : ℚ))) ∧
    ((radii [1/4] 1).filterMap id).sum = 1 :=
  radii_sum_one [1/4] 1
    (by norm_num [total, counts, binCount, inBinB, transform, pymod, width,
      List.range_succ])

/- ### `np.where` + fancy indexing is an order-preserving filter -/

theorem whereTrue_cons (b : Bool) (mask : List Bool) :
    whereTrue (b :: mask) =
      (if b then [0] else []) ++ (whereTrue mask).map (fun i => i + 1) := by
  unfold whereTrue
  rw [List.length_cons, List.range_succ_eq_map, List.filter_cons,
    List.filter_map]
  have hpred : ((fun i => (b :: mask).getD i false) ∘ Nat.succ)
      = (fun i => mask.getD i false) := rfl
  have hmap : List.map Nat.succ
        (List.filter (fun i => mask.getD i false) (List.range mask.length))
      = List.map (fun i => i + 1)
        (List.filter (fun i => mask.getD i false) (List.range mask.length)) := rfl
  rw [hpred, hmap]
  cases b <;> simp

theorem select_map {α β : Type*} (l : List α) (p : α → Bool) (f : α → β) :
    (whereTrue (l.map p)).filterMap (fun i => (l.get? i).map f)
      = (l.filter p).map f := by
  induction l with
  | nil => rfl
  | cons a t ih =>
    rw [List.map_cons, whereTrue_cons, List.filterMap_append, List.filterMap_map]
    have hcomp : ((fun i => ((a :: t).get? i).map f) ∘ (fun i => i + 1))
        = (fun i => (t.get? i).map f) := rfl
    rw [hcomp, ih, List.filter_cons]
    cases hpa : p a
    · simp [List.filterMap_cons]
    · simp [List.filterMap_cons]

/-- C8: the cleaner returns exactly the three aligned columns of the rows
where both `WDF5` and `WSF5` are present, in the original row order (so it
returns three empty sequences when no row qualifies), and on the spec's
three-row example it retains exactly the sample `(dir=10, speed=5)`. -/
theorem clean_wind_data_filters_nan :
    (∀ df : List Obs,
      clean_wind_data df =
        ((df.filter cleanP).map Obs.date, (df.filter cleanP).map Obs.wdf5,
         (df.filter cleanP).map Obs.wsf5)) ∧
    clean_wind_data exampleDf = ([['a']], [some 10], [some 5]) := by
  have hgen : ∀ df : List Obs,
      clean_wind_data df =
        ((df.filter cleanP).map Obs.date, (df.filter cleanP).map Obs.wdf5,
         (df.filter cleanP).map Obs.wsf5) := by
    intro df
    simp only [clean_wind_data]
    rw [select_map df cleanP Obs.date, select_map df cleanP Obs.wdf5,
      select_map df cleanP Obs.wsf5]
  exact ⟨hgen, by rw [hgen exampleDf]; rfl⟩

/- ### Month tags and date strings -/

theorem dash_beq_eq_false (c : Char) (h : c.isDigit = true) :
    ('-' == c) = false := by
  cases hc : ('-' == c)
  · rfl
  · exfalso
    have hcd : '-' = c := eq_of_beq hc
    rw [← hcd] at h
    exact absurd h (by decide)

/-- In a `YYYY-MM-DD` shaped character list whose year, month and day
characters are digits, a dash-delimited two-character tag can only match at
the month position. -/
theorem containsSub_iso (a b y1 y2 y3 y4 m1 m2 e f : Char)
    (hy1 : y1.isDigit = true) (hy2 : y2.isDigit = true)
    (hy3 : y3.isDigit = true) (hy4 : y4.isDigit = true)
    (hm1 : m1.isDigit = true) (hm2 : m2.isDigit = true)
    (he : e.isDigit = true) (hf : f.isDigit = true) :
    containsSub ['-', a, b, '-'] [y1, y2, y3, y4, '-', m1, m2, '-', e, f]
      = ((a == m1) && (b == m2)) := by
  have h1 := dash_beq_eq_false y1 hy1
  have h2 := dash_beq_eq_false y2 hy2
  have h3 := dash_beq_eq_false y3 hy3
  have h4 := dash_beq_eq_false y4 hy4
  have h5 := dash_beq_eq_false m1 hm1
  have h6 := dash_beq_eq_false m2 hm2
  have h7 := dash_beq_eq_false e he
  have h8 := dash_beq_eq_false f hf
  simp only [containsSub, isPrefixOfB, h1, h2, h3, h4, h5, h6, h7, h8,
    beq_self_eq_true, Bool.true_and, Bool.false_and, Bool.and_false,
    Bool.and_true, Bool.false_or, Bool.or_false, List.isEmpty_cons]

theorem monthTag_digits : ∀ m, m < 13 →
    ((Char.ofNat (48 + m / 10)).isDigit = true ∧
     (Char.ofNat (48 + m % 10)).isDigit = true) := by decide

theorem monthTag_beq : ∀ j, j < 13 → ∀ m, m < 13 →
    ((Char.ofNat (48 + j / 10) == Char.ofNat (48 + m / 10)) &&
     (Char.ofNat (48 + j % 10) == Char.ofNat (48 + m % 10))) = decide (j = m) := by
  decide

theorem monthMatch_iso (j m : ℕ) (y1 y2 y3 y4 e f : Char)
    (hy1 : y1.isDigit = true) (hy2 : y2.isDigit = true)
    (hy3 : y3.isDigit = true) (hy4 : y4.isDigit = true)
    (he : e.isDigit = true) (hf : f.isDigit = true)
    (hj1 : 1 ≤ j) (hj2 : j ≤ 12) (hm1 : 1 ≤ m) (hm2 : m ≤ 12) :
    monthMatch j (isoDateList y1 y2 y3 y4 m e f) = decide (j = m) := by
  have hd := monthTag_digits m (by omega)
  unfold monthMatch monthTag isoDateList
  rw [containsSub_iso _ _ y1 y2 y3 y4 _ _ e f hy1 hy2 hy3 hy4 hd.1 hd.2 he hf]
  exact monthTag_beq j (by omega) m (by omega)

theorem monthsMatching_iso (y1 y2 y3 y4 e f : Char) (m : ℕ)
    (hy1 : y1.isDigit = true) (hy2 : y2.isDigit = true)
    (hy3 : y3.isDigit = true) (hy4 : y4.isDigit = true)
    (he : e.isDigit = true) (hf : f.isDigit = true)
    (hm1 : 1 ≤ m) (hm2 : m ≤ 12) :
    monthsMatching (isoDateList y1 y2 y3 y4 m e f) = [m - 1] := by
  unfold monthsMatching
  apply filter_range_unique 12 (m - 1)
  · omega
  · rw [monthMatch_iso (m - 1 + 1) m y1 y2 y3 y4 e f hy1 hy2 hy3 hy4 he hf
      (by omega) (by omega) hm1 hm2]
    exact decide_eq_true (by omega : m - 1 + 1 = m)
  · intro j hj hpj
    rw [monthMatch_iso (j + 1) m y1 y2 y3 y4 e f hy1 hy2 hy3 hy4 he hf
      (by omega) (by omega) hm1 hm2] at hpj
    have := of_decide_eq_true hpj
    omega

/-- C10: the monthly grouping tests whether the substring `-MM-` occurs in
the date string.  For ISO `YYYY-MM-DD` dates with month 01..12 the sample
lands in exactly the one group of its month; a date without the pattern
lands in no group, and a date containing two month tags lands in two. -/
theorem month_grouping_substring (y1 y2 y3 y4 e f : Char) (m : ℕ)
    (hy1 : y1.isDigit = true) (hy2 : y2.isDigit = true)
    (hy3 : y3.isDigit = true) (hy4 : y4.isDigit = true)
    (he : e.isDigit = true) (hf : f.isDigit = true)
    (hm1 : 1 ≤ m) (hm2 : m ≤ 12) :
    monthsMatching (isoDateList y1 y2 y3 y4 m e f) = [m - 1] ∧
    monthsMatching ['2', '0', '2', '0', '0', '1', '0', '1'] = [] ∧
    monthsMatching ['-', '0', '1', '-', '-', '0', '2', '-'] = [0, 1] := by
  refine ⟨monthsMatching_iso y1 y2 y3 y4 e f m hy1 hy2 hy3 hy4 he hf hm1 hm2,
    ?_, ?_⟩
  · decide
  · decide

/-- Witness for C10 at the concrete date `2020-05-17`. -/
theorem month_grouping_substring_witness :
    monthsMatching (isoDateList '2' '0' '2' '0' 5 '1' '7') = [4] ∧
    monthsMatching ['2', '0', '2', '0', '0', '1', '0', '1'] = [] ∧
    monthsMatching ['-', '0', '1', '-', '-', '0', '2', '-'] = [0, 1] :=
  month_grouping_substring '2' '0' '2' '0' '1' '7' 5 (by decide) (by decide)
    (by decide) (by decide) (by decide) (by decide) (by decide) (by decide)

/- ### The monthly loop's label/position confusion -/

/-- C5 (code bug): the monthly loop computes positions over the cleaned
`date` sequence, but line 87's `wd[index]` resolves them as labels of the
cleaned `WDF5` Series, which kept the original row labels.  On `bugDf`,
cleaning drops row 0, so the surviving January sample (original label 1,
cleaned position 0) is looked up under the absent label 0: the January group
receives only the missing-label value, every monthly bin count is zero, yet
binning the cleaned direction values directly counts the sample in its bin —
partition-then-bin does not reproduce direct binning. -/
theorem monthly_label_indexing_bug :
    cleanWdSeries bugDf = [(1, some (1/4 : ℚ))] ∧
    (clean_wind_data bugDf).1 = [isoDateList '2' '0' '2' '0' 1 '0' '5'] ∧
    monthWd (clean_wind_data bugDf).1 (cleanWdSeries bugDf) 0 = [none] ∧
    ((List.range 12).map (fun m =>
        binCount
          ((monthWd (clean_wind_data bugDf).1 (cleanWdSeries bugDf) m).filterMap
            id) 4 0)).sum = 0 ∧
    binCount [1/4] 4 0 = 1 ∧ total [1/4] 4 = 1 := by
  refine ⟨rfl, rfl, rfl, by decide, ?_, ?_⟩
  · norm_num [binCount, inBinB, transform, pymod, width]
  · norm_num [total, counts, binCount, inBinB, transform, pymod, width,
      List.range_succ]

end Windy
